import Mathlib

/-!
Verification of the interval-reconstruction engine of the
`no-lights-monitor` graph service (`src/graph-service/main.py`).

The engine turns a raw list of on/off events into seven per-day lists of
typed, contiguous segments.  The embedding below mirrors the Python source:

* an absolute instant is modelled as a number of seconds on the local
  (Kyiv) clock, an integer (`parse_ts` already applies the single fixed
  zone before the engine looks at a timestamp, and `to_decimal` drops
  sub-second precision, so integer local seconds capture every value the
  engine can observe);
* Python floats carrying decimal hours are modelled by `ℚ` (every hour
  value the engine manipulates is of the form `n / 3600`);
* `sorted(...)` is Python's stable sort; its output is the unique list
  that is sorted by the key with equal-key elements kept in input order,
  which is exactly `List.insertionSort` with the non-strict key order;
* `round(x, 2)` is round-half-to-even at two decimal places (`round2`).

Field and function names follow the source where Lean allows it
(the source's segment field `end` is a Lean keyword and is rendered
`stop`).
-/

/-- Kinds of drawable segments, from `build_day_segments`'s docstring:
`green` = lights on, `red` = lights off, `unknown` = no history yet,
`future` = after the current time. -/
inductive Kind where
  | green
  | red
  | unknown
  | future
deriving DecidableEq, Repr

/-- One drawable segment `{'start': …, 'end': …, 'kind': …}`.
The source's `end` key is a Lean keyword, rendered `stop`. -/
structure Segment where
  start : ℚ
  stop : ℚ
  kind : Kind
deriving DecidableEq, Repr

/-- An intra-day event record `{'hour': …, 'is_online': …}` as stored in
the `by_day` buckets of `build_week_from_events`. -/
structure DayEvent where
  hour : ℚ
  is_online : Bool
deriving DecidableEq, Repr

/-- A raw event of the request body (`RawEvent` model).  `timestamp` is
the already-parsed instant, as seconds on the local clock. -/
structure RawEvent where
  id : ℤ
  monitor_id : ℤ
  is_online : Bool
  timestamp : ℤ
deriving DecidableEq, Repr

/-- One row of `days_draw`: the per-day record assembled by
`build_week_from_events`.  `date_label` is modelled by the local
calendar-day index. -/
structure Day where
  date_label : ℤ
  segments : List Segment
  hours_online : ℚ
  hours_offline : ℚ
  is_future : Bool
deriving DecidableEq, Repr

/-- `seg_kind` from the source: convert an `Optional[bool]` status to a
segment kind. -/
def seg_kind : Option Bool → Kind
  | none => Kind.unknown
  | some true => Kind.green
  | some false => Kind.red

/-- `to_decimal` from the source: `dt.hour + dt.minute / 60.0 +
dt.second / 3600.0`. -/
def to_decimal (h m s : ℤ) : ℚ :=
  (h : ℚ) + (m : ℚ) / 60 + (s : ℚ) / 3600

/-- The second-of-day of a local instant (what the `datetime`'s
clock-face fields encode). -/
def secOfDay (t : ℤ) : ℤ := t.emod 86400

/-- The local calendar-day index of an instant (the `%Y-%m-%d` key /
`.date()` value used for grouping and day comparisons). -/
def dateKey (t : ℤ) : ℤ := (t - secOfDay t) / 86400

/-- The `dt.hour` field of a local instant. -/
def localHour (t : ℤ) : ℤ := secOfDay t / 3600

/-- The `dt.minute` field of a local instant. -/
def localMin (t : ℤ) : ℤ := secOfDay t % 3600 / 60

/-- The `dt.second` field of a local instant. -/
def localSec (t : ℤ) : ℤ := secOfDay t % 60

/-- The decimal hour-of-day of an instant, `to_decimal` applied to its
local clock fields. -/
def hourOf (t : ℤ) : ℚ := to_decimal (localHour t) (localMin t) (localSec t)

/-- The loop of `build_day_segments`: walk the day's events, breaking at
the first event at or past `known_end`; emit a segment whenever the
event's hour strictly exceeds the cursor; always advance `status` and
`cursor`.  Returns the emitted segments together with the final cursor
and status. -/
def segLoop (known_end : ℚ) :
    List DayEvent → ℚ → Option Bool → List Segment × ℚ × Option Bool
  | [], cursor, status => ([], cursor, status)
  | ev :: rest, cursor, status =>
    if known_end ≤ ev.hour then
      ([], cursor, status)
    else
      let tail := segLoop known_end rest ev.hour (some ev.is_online)
      if cursor < ev.hour then
        (⟨cursor, ev.hour, seg_kind status⟩ :: tail.1, tail.2)
      else
        tail

/-- `build_day_segments` from the source: convert sorted intra-day
events into drawable segments, returning `(segments, last_status)`. -/
def build_day_segments (day_events : List DayEvent)
    (initial_status : Option Bool) (cutoff : Option ℚ) :
    List Segment × Option Bool :=
  let known_end := match cutoff with
    | some c => c
    | none => (24 : ℚ)
  let r := segLoop known_end day_events 0 initial_status
  let segs := r.1
  let cursor := r.2.1
  let status := r.2.2
  let segs :=
    if cursor < known_end then segs ++ [⟨cursor, known_end, seg_kind status⟩]
    else segs
  let segs := match cutoff with
    | some c => if c < 24 then segs ++ [⟨c, 24, Kind.future⟩] else segs
    | none => segs
  (segs, status)

/-- Python's `sorted(events, key=lambda e: parse_ts(e.timestamp))`: the
stable sort of the request's events by instant. -/
def sortByTs (l : List RawEvent) : List RawEvent :=
  List.insertionSort (fun a b => a.timestamp ≤ b.timestamp) l

/-- Python's `sorted(day_events, key=lambda x: x['hour'])`: the stable
sort of one day's bucket by decimal hour. -/
def sortByHour (l : List DayEvent) : List DayEvent :=
  List.insertionSort (fun a b => a.hour ≤ b.hour) l

/-- The `initial_status` computation of `build_week_from_events`:
`pre_week[-1].is_online if pre_week else None` where `pre_week` keeps
the sorted events strictly before `week_start`. -/
def initial_status (evs : List RawEvent) (week_start : ℤ) : Option Bool :=
  (((sortByTs evs).filter fun e => decide (e.timestamp < week_start)).getLast?).map
    fun e => e.is_online

/-- The `by_day` grouping of `build_week_from_events`: the bucket for
one local calendar-day key, holding the `{'hour', 'is_online'}` records
of the retained week events in sorted-instant order. -/
def by_day (week_start : ℤ) (evs : List RawEvent) (key : ℤ) : List DayEvent :=
  ((sortByTs evs).filter fun e =>
      decide (week_start ≤ e.timestamp) &&
      decide (e.timestamp < week_start + 7 * 86400) &&
      decide (dateKey e.timestamp = key)).map
    fun e => ⟨hourOf e.timestamp, e.is_online⟩

/-- Round-half-to-even to an integer (Python's `round` on one value). -/
def rhe (q : ℚ) : ℤ :=
  if q - ⌊q⌋ < 1 / 2 then ⌊q⌋
  else if 1 / 2 < q - ⌊q⌋ then ⌊q⌋ + 1
  else if 2 ∣ ⌊q⌋ then ⌊q⌋ else ⌊q⌋ + 1

/-- Python's `round(x, 2)`: round-half-to-even at two decimal places. -/
def round2 (q : ℚ) : ℚ := ((rhe (100 * q) : ℤ) : ℚ) / 100

/-- `sum(s['end'] - s['start'] for s in segments if s['kind'] == k)`. -/
def sumKind (k : Kind) (l : List Segment) : ℚ :=
  ((l.filter fun s => decide (s.kind = k)).map fun s => s.stop - s.start).sum

/-- Sum of all segment durations of a day. -/
def sumDur (l : List Segment) : ℚ := (l.map fun s => s.stop - s.start).sum

/-- A list of segments tiles `[a, b)` exactly: consecutive, strictly
increasing, starting at `a` and ending at `b`. -/
def isChain (a b : ℚ) : List Segment → Prop
  | [] => a = b
  | s :: rest => s.start = a ∧ s.start < s.stop ∧ isChain s.stop b rest

/-- An hour value the engine can produce for an event or a cutoff:
a whole number of seconds within the day, divided by 3600. -/
def GoodHour (q : ℚ) : Prop := ∃ n : ℕ, n < 86400 ∧ q = (n : ℚ) / 3600

/-- A segment boundary: a whole number of seconds in `[0, 86400]`
divided by 3600 (also admits the day end 24.0). -/
def Sec (q : ℚ) : Prop := ∃ n : ℕ, n ≤ 86400 ∧ q = (n : ℚ) / 3600

/-- The day loop of `build_week_from_events`: drive the remaining
offsets, threading the carry status.  A future local date gets the fixed
single-`future` record; otherwise `build_day_segments` runs on the day's
sorted bucket with a cutoff exactly on "today". -/
def assembleDays (week_start now : ℤ) (bucket : ℤ → List DayEvent) :
    List ℕ → Option Bool → List Day
  | [], _ => []
  | offset :: rest, carry =>
    let day_dt := week_start + (offset : ℤ) * 86400
    let day_key := dateKey day_dt
    let today := dateKey now
    if today < day_key then
      ⟨day_key, [⟨0, 24, Kind.future⟩], 0, 0, true⟩ ::
        assembleDays week_start now bucket rest carry
    else
      let cutoff := if day_key = today then some (hourOf now) else none
      let day_events := sortByHour (bucket day_key)
      let r := build_day_segments day_events carry cutoff
      let segments := r.1
      let last_status := r.2
      let has_real_data :=
        segments.any fun s => decide (s.kind = Kind.green) || decide (s.kind = Kind.red)
      ⟨day_key, segments,
        round2 (sumKind Kind.green segments),
        round2 (sumKind Kind.red segments),
        !has_real_data⟩ ::
        assembleDays week_start now bucket rest last_status

/-- `build_week_from_events` (the engine part, up to the `days_draw`
list handed to the out-of-scope renderer): resolve the initial status
from pre-week history, group the week's events by local day, and drive
the seven offsets. -/
def build_week_from_events (week_start now : ℤ) (evs : List RawEvent) :
    List Day :=
  assembleDays week_start now (by_day week_start evs) [0, 1, 2, 3, 4, 5, 6]
    (initial_status evs week_start)

/-- One step of the specification's fold (§4.4 of the spec, read as a
fold with accumulator `(intervals, cursor, state)`): close `[cursor,
eventHour)` when `eventHour > cursor`, then move `state` and `cursor`
to the event. -/
def specStep (acc : List Segment × ℚ × Option Bool) (ev : DayEvent) :
    List Segment × ℚ × Option Bool :=
  let segs := acc.1
  let cursor := acc.2.1
  let state := acc.2.2
  let segs :=
    if cursor < ev.hour then segs ++ [⟨cursor, ev.hour, seg_kind state⟩]
    else segs
  (segs, ev.hour, some ev.is_online)

/-- The SegmentBuilder exactly as the spec words it: `knownEnd` is the
cutoff if supplied else 24; processing stops at the first event at or
past `knownEnd` (`takeWhile`); the surviving prefix is folded with
`specStep` from `(nil, 0, carry)`; a final `[cursor, knownEnd)` interval
is closed when `cursor < knownEnd`; and a trailing `[cutoff, 24)`
`Future` interval is appended iff a cutoff strictly below 24 was
supplied. -/
def specSegmentBuilder (evs : List DayEvent) (carry : Option Bool)
    (cutoff : Option ℚ) : List Segment × Option Bool :=
  let knownEnd := match cutoff with
    | some c => c
    | none => (24 : ℚ)
  let processed := evs.takeWhile fun ev => decide (ev.hour < knownEnd)
  let r := processed.foldl specStep ([], 0, carry)
  let segs := r.1
  let cursor := r.2.1
  let state := r.2.2
  let segs :=
    if cursor < knownEnd then segs ++ [⟨cursor, knownEnd, seg_kind state⟩]
    else segs
  let segs := match cutoff with
    | some c => if c < 24 then segs ++ [⟨c, 24, Kind.future⟩] else segs
    | none => segs
  (segs, state)

lemma foldl_specStep_acc (l : List DayEvent) (s : List Segment) (c : ℚ)
    (st : Option Bool) :
    l.foldl specStep (s, c, st) =
      (s ++ (l.foldl specStep ([], c, st)).1,
        (l.foldl specStep ([], c, st)).2) := by
  induction l generalizing s c st with
  | nil => simp
  | cons e t ih =>
    simp only [List.foldl_cons]
    rw [show specStep (s, c, st) e =
          ((s, c, st).1 ++ (specStep ([], c, st) e).1,
            (specStep ([], c, st) e).2) by
        simp only [specStep]
        split <;> simp]
    rw [ih, ih (specStep ([], c, st) e).1]
    simp [List.append_assoc]

lemma segLoop_eq_spec (ke : ℚ) (evs : List DayEvent) (c : ℚ)
    (st : Option Bool) :
    segLoop ke evs c st =
      (evs.takeWhile fun e => decide (e.hour < ke)).foldl specStep
        ([], c, st) := by
  induction evs generalizing c st with
  | nil => rfl
  | cons e t ih =>
    by_cases h : ke ≤ e.hour
    · have hd : (decide (e.hour < ke)) = false := by
        simp [not_lt.mpr h]
      simp [segLoop, h, List.takeWhile_cons, hd]
    · have hlt : e.hour < ke := lt_of_not_le h
      have htw : List.takeWhile (fun x : DayEvent => decide (x.hour < ke)) (e :: t)
          = e :: List.takeWhile (fun x : DayEvent => decide (x.hour < ke)) t := by
        simp [hlt]
      rw [htw]
      simp only [segLoop, if_neg h, List.foldl_cons]
      by_cases hc : c < e.hour
      · rw [show specStep ([], c, st) e =
              ([(⟨c, e.hour, seg_kind st⟩ : Segment)], e.hour, some e.is_online) by
            simp [specStep, hc]]
        rw [foldl_specStep_acc]
        rw [ih]
        simp [hc]
      · rw [show specStep ([], c, st) e = ([], e.hour, some e.is_online) by
            simp [specStep, hc]]
        rw [ih]
        simp [hc]

/-- C1: on every event list, carry state and optional cutoff,
`build_day_segments` computes exactly the specification's fold: with
`cursor = 0`, `state = carry` and `knownEnd = cutoff`-or-24, it stops at
the first event at or past `knownEnd`, closes `[cursor, eventHour)`
(kind from `state`) for each earlier event whose hour exceeds the
cursor, advances `state`/`cursor`, closes `[cursor, knownEnd)` after the
loop when `cursor < knownEnd`, and appends the trailing `[cutoff, 24)`
`Future` interval iff a cutoff below 24 was supplied.  (Proved for all
inputs, in particular for event lists sorted ascending by hour.) -/
theorem build_day_segments_refines_spec (evs : List DayEvent)
    (carry : Option Bool) (cutoff : Option ℚ) :
    build_day_segments evs carry cutoff = specSegmentBuilder evs carry cutoff := by
  simp only [build_day_segments, specSegmentBuilder, segLoop_eq_spec]

lemma hourOf_spec (t : ℤ) :
    hourOf t = ((secOfDay t : ℤ) : ℚ) / 3600 ∧
      0 ≤ hourOf t ∧ hourOf t < 24 := by
  have hs0 : 0 ≤ secOfDay t := Int.emod_nonneg t (by norm_num)
  have hs1 : secOfDay t < 86400 := Int.emod_lt_of_pos t (by norm_num)
  have key : 3600 * (secOfDay t / 3600) + 60 * (secOfDay t % 3600 / 60) +
      secOfDay t % 60 = secOfDay t := by omega
  have main : hourOf t = ((secOfDay t : ℤ) : ℚ) / 3600 := by
    unfold hourOf to_decimal localHour localMin localSec
    have keyQ : (3600 : ℚ) * ((secOfDay t / 3600 : ℤ) : ℚ) +
        60 * ((secOfDay t % 3600 / 60 : ℤ) : ℚ) +
        ((secOfDay t % 60 : ℤ) : ℚ) = ((secOfDay t : ℤ) : ℚ) := by
      exact_mod_cast congrArg (fun z : ℤ => (z : ℚ)) key
    field_simp
    linarith [keyQ]
  refine ⟨main, ?_, ?_⟩
  · rw [main]
    positivity
  · rw [main, div_lt_iff₀ (by norm_num : (0:ℚ) < 3600)]
    have : ((secOfDay t : ℤ) : ℚ) < 86400 := by exact_mod_cast hs1
    linarith

/-- Every hour value the engine computes from an instant is a whole
number of in-day seconds over 3600. -/
lemma goodHour_hourOf (t : ℤ) : GoodHour (hourOf t) := by
  obtain ⟨main, _, _⟩ := hourOf_spec t
  have hs0 : 0 ≤ secOfDay t := Int.emod_nonneg t (by norm_num)
  have hs1 : secOfDay t < 86400 := Int.emod_lt_of_pos t (by norm_num)
  refine ⟨(secOfDay t).toNat, by omega, ?_⟩
  rw [main]
  congr 1
  exact_mod_cast (congrArg (fun z : ℤ => (z : ℚ))
    (Int.toNat_of_nonneg hs0)).symm

/-- C8: for every instant, the decimal hour-of-day that `to_decimal`
computes from the local clock fields equals `secondOfDay / 3600`
exactly — the formula `hour + minute/60 + second/3600` over `ℚ`
introduces no rounding — it lies in `[0, 24)`, and every integer
instant (also before the epoch) is valid input.  The same `hourOf`
function is applied to every instant of the engine, events and the
"now" cutoff alike. -/
theorem to_decimal_exact (t : ℤ) :
    hourOf t = ((secOfDay t : ℤ) : ℚ) / 3600 ∧
      0 ≤ hourOf t ∧ hourOf t < 24 :=
  hourOf_spec t

/-- C9: the engine is a pure function of the week start, the event
list, and the "now" instant: two invocations on equal inputs produce
identical seven-day sequences (labels, segment lists, hour aggregates
and flags). -/
theorem build_week_deterministic (ws₁ ws₂ now₁ now₂ : ℤ)
    (evs₁ evs₂ : List RawEvent)
    (h₁ : ws₁ = ws₂) (h₂ : now₁ = now₂) (h₃ : evs₁ = evs₂) :
    build_week_from_events ws₁ now₁ evs₁ =
      build_week_from_events ws₂ now₂ evs₂ := by
  subst h₁
  subst h₂
  subst h₃
  rfl

/-- Witness for C9 at a concrete input. -/
theorem build_week_deterministic_witness :
    build_week_from_events 0 86400 [] = build_week_from_events 0 86400 [] :=
  build_week_deterministic 0 0 86400 86400 [] [] rfl rfl rfl

lemma orderedInsert_of_forall {α : Type} (r : α → α → Prop) [DecidableRel r]
    (a : α) (l : List α) (h : ∀ x ∈ l, r a x) :
    List.orderedInsert r a l = a :: l := by
  cases l with
  | nil => rfl
  | cons b t =>
    simp only [List.orderedInsert]
    rw [if_pos (h b (by simp))]

lemma filter_orderedInsert_pos {α : Type} (r : α → α → Prop) [DecidableRel r]
    [IsTrans α r] (p : α → Bool) (a : α) (l : List α)
    (hs : l.Sorted r) (hpa : p a = true) :
    (List.orderedInsert r a l).filter p =
      List.orderedInsert r a (l.filter p) := by
  induction l with
  | nil => simp [List.orderedInsert, hpa]
  | cons b t ih =>
    rw [List.sorted_cons] at hs
    obtain ⟨hb, ht⟩ := hs
    simp only [List.orderedInsert]
    by_cases hab : r a b
    · rw [if_pos hab]
      have hall : ∀ x ∈ (b :: t).filter p, r a x := by
        intro x hx
        have hx' := List.mem_of_mem_filter hx
        rcases List.mem_cons.mp hx' with h1 | h2
        · exact h1 ▸ hab
        · exact Trans.trans hab (hb x h2)
      rw [orderedInsert_of_forall r a _ hall]
      rw [List.filter_cons_of_pos hpa]
    · rw [if_neg hab]
      by_cases hpb : p b = true
      · rw [List.filter_cons_of_pos hpb, List.filter_cons_of_pos hpb]
        simp only [List.orderedInsert]
        rw [if_neg hab]
        rw [ih ht]
      · rw [List.filter_cons_of_neg (by simp [hpb]),
          List.filter_cons_of_neg (by simp [hpb])]
        exact ih ht

lemma filter_orderedInsert_neg {α : Type} (r : α → α → Prop) [DecidableRel r]
    (p : α → Bool) (a : α) (l : List α) (hpa : p a = false) :
    (List.orderedInsert r a l).filter p = l.filter p := by
  induction l with
  | nil => simp [List.orderedInsert, hpa]
  | cons b t ih =>
    simp only [List.orderedInsert]
    by_cases hab : r a b
    · rw [if_pos hab, List.filter_cons_of_neg (by simp [hpa])]
    · rw [if_neg hab]
      by_cases hpb : p b = true
      · rw [List.filter_cons_of_pos hpb, List.filter_cons_of_pos hpb, ih]
      · rw [List.filter_cons_of_neg (by simp [hpb]),
          List.filter_cons_of_neg (by simp [hpb])]
        exact ih

lemma filter_insertionSort {α : Type} (r : α → α → Prop) [DecidableRel r]
    [IsTotal α r] [IsTrans α r] (p : α → Bool) (l : List α) :
    (List.insertionSort r l).filter p = List.insertionSort r (l.filter p) := by
  induction l with
  | nil => rfl
  | cons a t ih =>
    simp only [List.insertionSort]
    by_cases hpa : p a = true
    · rw [filter_orderedInsert_pos r p a _ (List.sorted_insertionSort r t) hpa,
        ih, List.filter_cons_of_pos hpa]
      rfl
    · rw [filter_orderedInsert_neg r p a _ (by simp [hpa]), ih,
        List.filter_cons_of_neg (by simp [hpa])]

lemma sorted_getLast?_max {α : Type} (r : α → α → Prop) :
    ∀ l : List α, l.Sorted r → ∀ w, l.getLast? = some w →
      ∀ x ∈ l, x = w ∨ r x w := by
  intro l
  induction l with
  | nil =>
    intro _ w hw
    simp at hw
  | cons a t ih =>
    intro hs w hw x hx
    rw [List.sorted_cons] at hs
    obtain ⟨ha, ht⟩ := hs
    cases t with
    | nil =>
      simp at hw
      simp at hx
      left
      rw [hx, hw]
    | cons b u =>
      rw [List.getLast?_cons_cons] at hw
      rcases List.mem_cons.mp hx with h1 | h2
      · right
        rw [h1]
        exact ha w (List.mem_of_getLast?_eq_some hw)
      · exact ih ht w hw x h2

instance : IsTotal RawEvent fun a b => a.timestamp ≤ b.timestamp :=
  ⟨fun a b => le_total a.timestamp b.timestamp⟩

instance : IsTrans RawEvent fun a b => a.timestamp ≤ b.timestamp :=
  ⟨fun _ _ _ h₁ h₂ => le_trans h₁ h₂⟩

instance : IsTotal DayEvent fun a b => a.hour ≤ b.hour :=
  ⟨fun a b => le_total a.hour b.hour⟩

instance : IsTrans DayEvent fun a b => a.hour ≤ b.hour :=
  ⟨fun _ _ _ h₁ h₂ => le_trans h₁ h₂⟩

lemma sorted_sortByTs (l : List RawEvent) :
    (sortByTs l).Sorted fun a b => a.timestamp ≤ b.timestamp :=
  List.sorted_insertionSort _ l

lemma perm_sortByTs (l : List RawEvent) : (sortByTs l).Perm l :=
  List.perm_insertionSort _ l

lemma mem_sortByTs {x : RawEvent} {l : List RawEvent} :
    x ∈ sortByTs l ↔ x ∈ l :=
  (perm_sortByTs l).mem_iff

lemma filter_sortByTs (p : RawEvent → Bool) (l : List RawEvent) :
    (sortByTs l).filter p = sortByTs (l.filter p) :=
  filter_insertionSort _ p l

lemma sorted_sortByHour (l : List DayEvent) :
    (sortByHour l).Sorted fun a b => a.hour ≤ b.hour :=
  List.sorted_insertionSort _ l

lemma perm_sortByHour (l : List DayEvent) : (sortByHour l).Perm l :=
  List.perm_insertionSort _ l

lemma mem_sortByHour {x : DayEvent} {l : List DayEvent} :
    x ∈ sortByHour l ↔ x ∈ l :=
  (perm_sortByHour l).mem_iff

lemma initial_status_filter_inv (evs : List RawEvent) (ws : ℤ) :
    initial_status evs ws =
      initial_status (evs.filter fun e => decide (e.timestamp < ws)) ws := by
  unfold initial_status
  rw [filter_sortByTs, filter_sortByTs, List.filter_filter]
  have hff : List.filter
      (fun a => decide (a.timestamp < ws) && decide (a.timestamp < ws)) evs =
      List.filter (fun e => decide (e.timestamp < ws)) evs := by
    apply List.filter_congr
    intro x _
    rw [Bool.and_self]
  rw [hff]

/-- C3: the initial carry state is `None` exactly when no event lies
strictly before the window start; it never depends on events at or
after the window start; and when some event does lie strictly before
the window start, the chosen value is the `is_online` of an event `w`
that (i) lies strictly before the window start, (ii) has the latest
instant among all such events, and (iii) is the last element of the
engine's stable sorted order restricted to the pre-window events — so
among several events sharing the same latest instant, the one sorted
last wins. -/
theorem initial_status_spec (evs : List RawEvent) (ws : ℤ) :
    (initial_status evs ws = none ↔ ∀ e ∈ evs, ws ≤ e.timestamp) ∧
    initial_status evs ws =
      initial_status (evs.filter fun e => decide (e.timestamp < ws)) ws ∧
    (∀ e ∈ evs, e.timestamp < ws →
      ∃ w, w ∈ evs ∧ w.timestamp < ws ∧
        initial_status evs ws = some w.is_online ∧
        (∀ x ∈ evs, x.timestamp < ws → x.timestamp ≤ w.timestamp) ∧
        ∃ l₁, (sortByTs evs).filter (fun x => decide (x.timestamp < ws)) =
            l₁ ++ [w] ∧ ∀ x ∈ l₁, x.timestamp ≤ w.timestamp) := by
  have hPsorted : ((sortByTs evs).filter
      fun x => decide (x.timestamp < ws)).Sorted
        (fun a b => a.timestamp ≤ b.timestamp) :=
    (sorted_sortByTs evs).filter _
  refine ⟨?_, ?_, ?_⟩
  · unfold initial_status
    rw [Option.map_eq_none']
    rw [List.getLast?_eq_none_iff]
    rw [List.filter_eq_nil_iff]
    constructor
    · intro h e he
      have := h e (mem_sortByTs.mpr he)
      simpa using this
    · intro h e he
      simp only [decide_eq_true_eq]
      exact not_lt.mpr (h e (mem_sortByTs.mp he))
  · exact initial_status_filter_inv evs ws
  · intro e he hets
    set p : RawEvent → Bool := fun x => decide (x.timestamp < ws) with hp
    set P := (sortByTs evs).filter p with hP
    have heP : e ∈ P := by
      rw [hP]
      exact List.mem_filter.mpr ⟨mem_sortByTs.mpr he, by simp [hp, hets]⟩
    have hne : P ≠ [] := List.ne_nil_of_mem heP
    have hlast : P.getLast? = some (P.getLast hne) :=
      List.getLast?_eq_getLast P hne
    set w := P.getLast hne with hw
    have hwP : w ∈ P := List.getLast_mem hne
    have hwprops := List.mem_filter.mp (hP ▸ hwP)
    have hwevs : w ∈ evs := mem_sortByTs.mp hwprops.1
    have hwts : w.timestamp < ws := by
      have := hwprops.2
      simpa [hp] using this
    refine ⟨w, hwevs, hwts, ?_, ?_, ?_⟩
    · unfold initial_status
      rw [← hp, ← hP, hlast]
      rfl
    · intro x hx hxts
      have hxP : x ∈ P := by
        rw [hP]
        exact List.mem_filter.mpr ⟨mem_sortByTs.mpr hx, by simp [hp, hxts]⟩
      rcases sorted_getLast?_max _ P hPsorted w hlast x hxP with h1 | h2
      · rw [h1]
      · exact h2
    · obtain ⟨ys, hys⟩ := List.getLast?_eq_some_iff.mp hlast
      refine ⟨ys, hys, ?_⟩
      intro x hx
      have hxP : x ∈ P := by
        rw [hys]
        exact List.mem_append_left _ hx
      rcases sorted_getLast?_max _ P hPsorted w hlast x hxP with h1 | h2
      · rw [h1]
      · exact h2

/-- Witness for C3: two events share the pre-window instant 50; the one
sorted last (input order decides the tie) supplies the initial status. -/
theorem initial_status_spec_witness :
    ∃ w, w ∈ [(⟨0, 1, true, 50⟩ : RawEvent), ⟨1, 1, false, 50⟩] ∧
      w.timestamp < 100 ∧
      initial_status [(⟨0, 1, true, 50⟩ : RawEvent), ⟨1, 1, false, 50⟩] 100 =
        some w.is_online ∧
      (∀ x ∈ [(⟨0, 1, true, 50⟩ : RawEvent), ⟨1, 1, false, 50⟩],
        x.timestamp < 100 → x.timestamp ≤ w.timestamp) ∧
      ∃ l₁, (sortByTs [(⟨0, 1, true, 50⟩ : RawEvent),
            ⟨1, 1, false, 50⟩]).filter
            (fun x => decide (x.timestamp < 100)) = l₁ ++ [w] ∧
          ∀ x ∈ l₁, x.timestamp ≤ w.timestamp :=
  (initial_status_spec [⟨0, 1, true, 50⟩, ⟨1, 1, false, 50⟩] 100).2.2
    ⟨0, 1, true, 50⟩ (by simp) (by norm_num)

/-- C7: the window is half-open.  Every event of the request whose
instant lies in `[weekStart, weekStart + 7 days)` — in particular one
exactly at `weekStart` — contributes its record to the day bucket of
its local date; the day buckets are unchanged when events outside the
window are dropped (so pre-window and post-window events are excluded
from partitioning); and the initial-state resolution is unchanged when
events at or after `weekStart` are dropped (they only see events
strictly before the window). -/
theorem week_boundary_spec (evs : List RawEvent) (ws : ℤ) :
    (∀ e ∈ evs, ws ≤ e.timestamp → e.timestamp < ws + 7 * 86400 →
      (⟨hourOf e.timestamp, e.is_online⟩ : DayEvent) ∈
        by_day ws evs (dateKey e.timestamp)) ∧
    (∀ k, by_day ws evs k =
      by_day ws (evs.filter fun e =>
        decide (ws ≤ e.timestamp) &&
        decide (e.timestamp < ws + 7 * 86400)) k) ∧
    initial_status evs ws =
      initial_status (evs.filter fun e => decide (e.timestamp < ws)) ws := by
  refine ⟨?_, ?_, initial_status_filter_inv evs ws⟩
  · intro e he h₁ h₂
    unfold by_day
    apply List.mem_map_of_mem
    apply List.mem_filter.mpr
    refine ⟨mem_sortByTs.mpr he, ?_⟩
    have h₂' : e.timestamp < ws + 604800 := by omega
    simp [h₁, h₂']
  · intro k
    unfold by_day
    rw [filter_sortByTs, filter_sortByTs, List.filter_filter]
    have hff : List.filter
        (fun a => (decide (ws ≤ a.timestamp) &&
            decide (a.timestamp < ws + 7 * 86400) &&
            decide (dateKey a.timestamp = k)) &&
          (decide (ws ≤ a.timestamp) &&
            decide (a.timestamp < ws + 7 * 86400))) evs =
        List.filter (fun e => decide (ws ≤ e.timestamp) &&
          decide (e.timestamp < ws + 7 * 86400) &&
          decide (dateKey e.timestamp = k)) evs := by
      apply List.filter_congr
      intro x _
      cases hA : decide (ws ≤ x.timestamp) <;>
        cases hB : decide (x.timestamp < ws + 7 * 86400) <;>
        cases hC : decide (dateKey x.timestamp = k) <;> simp
    rw [hff]

/-- Witness for C7: an event exactly at the week start (instant 0) is
retained and lands in the bucket of day 0. -/
theorem week_boundary_spec_witness :
    (⟨hourOf 0, true⟩ : DayEvent) ∈
      by_day 0 [(⟨0, 1, true, 0⟩ : RawEvent)] (dateKey 0) :=
  (week_boundary_spec [⟨0, 1, true, 0⟩] 0).1 ⟨0, 1, true, 0⟩ (by simp)
    (by norm_num) (by norm_num)

lemma takeWhile_eq_filter_sorted (ke : ℚ) :
    ∀ l : List DayEvent, l.Sorted (fun a b => a.hour ≤ b.hour) →
      l.takeWhile (fun e => decide (e.hour < ke)) =
        l.filter (fun e => decide (e.hour < ke)) := by
  intro l
  induction l with
  | nil => intro _; rfl
  | cons a t ih =>
    intro hs
    rw [List.sorted_cons] at hs
    obtain ⟨ha, ht⟩ := hs
    by_cases h : a.hour < ke
    · have htw : List.takeWhile (fun e : DayEvent => decide (e.hour < ke))
          (a :: t) =
          a :: List.takeWhile (fun e : DayEvent => decide (e.hour < ke)) t := by
        simp [List.takeWhile_cons, h]
      have hf : List.filter (fun e : DayEvent => decide (e.hour < ke))
          (a :: t) =
          a :: List.filter (fun e : DayEvent => decide (e.hour < ke)) t := by
        simp [List.filter_cons, h]
      rw [htw, hf, ih ht]
    · have htw : List.takeWhile (fun e : DayEvent => decide (e.hour < ke))
          (a :: t) = [] := by
        simp [List.takeWhile_cons, h]
      have hf : List.filter (fun e : DayEvent => decide (e.hour < ke))
          (a :: t) =
          List.filter (fun e : DayEvent => decide (e.hour < ke)) t := by
        simp [List.filter_cons, h]
      rw [htw, hf]
      symm
      rw [List.filter_eq_nil_iff]
      intro x hx
      simp only [decide_eq_true_eq]
      exact fun hlt => h (lt_of_le_of_lt (ha x hx) hlt)

lemma segLoop_status (ke : ℚ) :
    ∀ (evs : List DayEvent) (c : ℚ) (st : Option Bool),
      (segLoop ke evs c st).2.2 =
        match (evs.takeWhile fun e => decide (e.hour < ke)).getLast? with
        | none => st
        | some w => some w.is_online := by
  intro evs
  induction evs with
  | nil => intro c st; rfl
  | cons e t ih =>
    intro c st
    by_cases h : ke ≤ e.hour
    · have hd : List.takeWhile (fun x : DayEvent => decide (x.hour < ke))
          (e :: t) = [] := by
        rw [List.takeWhile_cons]
        simp [not_lt.mpr h]
      rw [hd]
      simp only [segLoop, if_pos h]
      rfl
    · have hlt : e.hour < ke := lt_of_not_le h
      have htw : List.takeWhile (fun x : DayEvent => decide (x.hour < ke))
          (e :: t) =
          e :: List.takeWhile (fun x : DayEvent => decide (x.hour < ke)) t := by
        rw [List.takeWhile_cons]
        simp [hlt]
      rw [htw]
      have hloop : (segLoop ke (e :: t) c st).2.2 =
          (segLoop ke t e.hour (some e.is_online)).2.2 := by
        simp only [segLoop, if_neg h]
        by_cases hc : c < e.hour
        · rw [if_pos hc]
        · rw [if_neg hc]
      rw [hloop, ih]
      cases hT : (List.takeWhile (fun x : DayEvent => decide (x.hour < ke))
          t).getLast? with
      | none =>
        have : List.takeWhile (fun x : DayEvent => decide (x.hour < ke)) t
            = [] := List.getLast?_eq_none_iff.mp hT
        rw [this]
        rfl
      | some w =>
        have hne : List.takeWhile (fun x : DayEvent => decide (x.hour < ke)) t
            ≠ [] := by
          intro hnil
          rw [hnil] at hT
          simp at hT
        cases hU : List.takeWhile (fun x : DayEvent => decide (x.hour < ke)) t
          with
        | nil => exact absurd hU hne
        | cons b u =>
          rw [hU] at hT
          rw [List.getLast?_cons_cons, hT]

lemma build_day_segments_status (evs : List DayEvent) (st : Option Bool)
    (cutoff : Option ℚ) :
    (build_day_segments evs st cutoff).2 =
      match (evs.takeWhile fun e =>
          decide (e.hour < cutoff.getD 24)).getLast? with
      | none => st
      | some w => some w.is_online := by
  cases cutoff with
  | none => exact segLoop_status 24 evs 0 st
  | some c => exact segLoop_status c evs 0 st

/-- C10 (implicit): when `build_day_segments` is invoked the way the
engine invokes it (day events sorted ascending by hour) and at least
one event lies strictly below `knownEnd = cutoff`-or-24, the returned
carry is resolved: it equals the `is_online` of the last event below
`knownEnd`, for every initial carry passed in — so events at or after
`knownEnd` never influence the returned carry. -/
theorem returned_carry_spec (evs : List DayEvent) (cutoff : Option ℚ)
    (hs : evs.Sorted fun a b => a.hour ≤ b.hour)
    (hex : ∃ e ∈ evs, e.hour < cutoff.getD 24) :
    ∃ w, (evs.filter fun e => decide (e.hour < cutoff.getD 24)).getLast? =
        some w ∧ w ∈ evs ∧ w.hour < cutoff.getD 24 ∧
      ∀ init, (build_day_segments evs init cutoff).2 = some w.is_online := by
  obtain ⟨e₀, he₀, hlt₀⟩ := hex
  have he₀F : e₀ ∈ evs.filter fun e => decide (e.hour < cutoff.getD 24) :=
    List.mem_filter.mpr ⟨he₀, by simp [hlt₀]⟩
  have hne : (evs.filter fun e => decide (e.hour < cutoff.getD 24)) ≠ [] :=
    List.ne_nil_of_mem he₀F
  have hlast := List.getLast?_eq_getLast _ hne
  set w := (evs.filter fun e => decide (e.hour < cutoff.getD 24)).getLast hne
    with hwdef
  have hwF : w ∈ evs.filter fun e => decide (e.hour < cutoff.getD 24) :=
    List.getLast_mem hne
  have hwp := List.mem_filter.mp hwF
  refine ⟨w, hlast, hwp.1, by simpa using hwp.2, ?_⟩
  intro init
  rw [build_day_segments_status, takeWhile_eq_filter_sorted _ _ hs, hlast]

/-- Witness for C10: sorted events at hours 1 and 2 below the 24-hour
scope and one at hour 30 beyond it; the returned carry is the hour-2
event's value for any initial carry. -/
theorem returned_carry_spec_witness :
    ∃ w, (([⟨1, true⟩, ⟨2, false⟩, ⟨30, true⟩] :
          List DayEvent).filter fun e =>
            decide (e.hour < Option.getD none 24)).getLast? = some w ∧
      w ∈ ([⟨1, true⟩, ⟨2, false⟩, ⟨30, true⟩] : List DayEvent) ∧
      w.hour < Option.getD none 24 ∧
      ∀ init, (build_day_segments [⟨1, true⟩, ⟨2, false⟩, ⟨30, true⟩]
          init none).2 = some w.is_online :=
  returned_carry_spec [⟨1, true⟩, ⟨2, false⟩, ⟨30, true⟩] none
    (by norm_num [List.sorted_cons])
    ⟨⟨1, true⟩, by simp, by norm_num⟩

lemma isChain_append {a b c : ℚ} :
    ∀ {l₁ l₂ : List Segment}, isChain a b l₁ → isChain b c l₂ →
      isChain a c (l₁ ++ l₂) := by
  intro l₁
  induction l₁ generalizing a with
  | nil =>
    intro l₂ h₁ h₂
    simp only [isChain] at h₁
    simpa [h₁] using h₂
  | cons s t ih =>
    intro l₂ h₁ h₂
    obtain ⟨hs, hlt, hrest⟩ := h₁
    exact ⟨hs, hlt, ih hrest h₂⟩

lemma isChain_le {a b : ℚ} : ∀ {l : List Segment}, isChain a b l → a ≤ b := by
  intro l
  induction l generalizing a with
  | nil => intro h; exact le_of_eq h
  | cons s t ih =>
    intro h
    obtain ⟨hs, hlt, hrest⟩ := h
    calc a = s.start := hs.symm
    _ ≤ s.stop := le_of_lt hlt
    _ ≤ b := ih hrest

lemma isChain_sum {a b : ℚ} :
    ∀ {l : List Segment}, isChain a b l → sumDur l = b - a := by
  intro l
  induction l generalizing a with
  | nil =>
    intro h
    simp only [isChain] at h
    simp [sumDur, h]
  | cons s t ih =>
    intro h
    obtain ⟨hs, _, hrest⟩ := h
    have := ih hrest
    simp only [sumDur, List.map_cons, List.sum_cons] at this ⊢
    rw [this, hs]
    ring

lemma isChain_mem_lt {a b : ℚ} :
    ∀ {l : List Segment}, isChain a b l → ∀ s ∈ l, s.start < s.stop := by
  intro l
  induction l generalizing a with
  | nil => intro _ s hs; simp at hs
  | cons u t ih =>
    intro h s hs
    obtain ⟨hu, hlt, hrest⟩ := h
    rcases List.mem_cons.mp hs with h1 | h2
    · rw [h1]; exact hlt
    · exact ih hrest s h2

lemma isChain_chain' {a b : ℚ} :
    ∀ {l : List Segment}, isChain a b l →
      l.Chain' (fun s t => s.stop = t.start) := by
  intro l
  induction l generalizing a with
  | nil => intro _; simp
  | cons u t ih =>
    intro h
    obtain ⟨hu, hlt, hrest⟩ := h
    cases t with
    | nil => simp
    | cons v w =>
      rw [List.chain'_cons]
      exact ⟨hrest.1.symm, ih hrest⟩

lemma isChain_head? {a b : ℚ} {l : List Segment} (h : isChain a b l)
    (hne : l ≠ []) : l.head?.map Segment.start = some a := by
  cases l with
  | nil => exact absurd rfl hne
  | cons s t =>
    obtain ⟨hs, _, _⟩ := h
    simp [hs]

lemma isChain_getLast? {a b : ℚ} :
    ∀ {l : List Segment}, isChain a b l → l ≠ [] →
      l.getLast?.map Segment.stop = some b := by
  intro l
  induction l generalizing a with
  | nil => intro _ hne; exact absurd rfl hne
  | cons s t ih =>
    intro h _
    obtain ⟨hs, hlt, hrest⟩ := h
    cases t with
    | nil =>
      simp only [isChain] at hrest
      simp [hrest]
    | cons v w =>
      rw [List.getLast?_cons_cons]
      exact ih hrest (by simp)

lemma segLoop_chain (ke : ℚ) :
    ∀ (evs : List DayEvent) (c : ℚ) (st : Option Bool),
      evs.Sorted (fun a b => a.hour ≤ b.hour) →
      (∀ e ∈ evs, c ≤ e.hour) →
      isChain c (segLoop ke evs c st).2.1 (segLoop ke evs c st).1 ∧
        ((segLoop ke evs c st).2.1 = c ∨ (segLoop ke evs c st).2.1 < ke) := by
  intro evs
  induction evs with
  | nil =>
    intro c st _ _
    exact ⟨rfl, Or.inl rfl⟩
  | cons e t ih =>
    intro c st hs hc
    rw [List.sorted_cons] at hs
    obtain ⟨he, ht⟩ := hs
    by_cases h : ke ≤ e.hour
    · have hres : segLoop ke (e :: t) c st = ([], c, st) := by
        simp only [segLoop, if_pos h]
      rw [hres]
      exact ⟨rfl, Or.inl rfl⟩
    · have hlt : e.hour < ke := lt_of_not_le h
      have ihr := ih e.hour (some e.is_online) ht he
      by_cases hcur : c < e.hour
      · have hres : segLoop ke (e :: t) c st =
            (⟨c, e.hour, seg_kind st⟩ ::
                (segLoop ke t e.hour (some e.is_online)).1,
              (segLoop ke t e.hour (some e.is_online)).2) := by
          simp only [segLoop, if_neg h, if_pos hcur]
        rw [hres]
        refine ⟨⟨rfl, hcur, ihr.1⟩, ?_⟩
        rcases ihr.2 with h1 | h2
        · exact Or.inr (by rw [h1]; exact hlt)
        · exact Or.inr h2
      · have hceq : e.hour = c :=
          le_antisymm (not_lt.mp hcur) (hc e (by simp))
        have hres : segLoop ke (e :: t) c st =
            segLoop ke t e.hour (some e.is_online) := by
          simp only [segLoop, if_neg h, if_neg hcur]
        rw [hres, ← hceq]
        exact ihr

lemma build_day_segments_chain (evs : List DayEvent) (st : Option Bool)
    (cutoff : Option ℚ)
    (hs : evs.Sorted fun a b => a.hour ≤ b.hour)
    (h0 : ∀ e ∈ evs, 0 ≤ e.hour)
    (hc : ∀ q, cutoff = some q → 0 ≤ q ∧ q < 24) :
    isChain 0 24 (build_day_segments evs st cutoff).1 := by
  cases cutoff with
  | none =>
    obtain ⟨hch, hcv⟩ := segLoop_chain 24 evs 0 st hs h0
    have hlt : (segLoop 24 evs 0 st).2.1 < 24 := by
      rcases hcv with h1 | h2
      · rw [h1]; norm_num
      · exact h2
    show isChain 0 24
      (if (segLoop 24 evs 0 st).2.1 < 24 then
        (segLoop 24 evs 0 st).1 ++
          [⟨(segLoop 24 evs 0 st).2.1, 24,
            seg_kind (segLoop 24 evs 0 st).2.2⟩]
      else (segLoop 24 evs 0 st).1)
    rw [if_pos hlt]
    have hsingle : isChain ((segLoop 24 evs 0 st).2.1) 24
        [⟨(segLoop 24 evs 0 st).2.1, 24,
          seg_kind (segLoop 24 evs 0 st).2.2⟩] := ⟨rfl, hlt, rfl⟩
    exact isChain_append hch hsingle
  | some q =>
    obtain ⟨hq0, hq24⟩ := hc q rfl
    obtain ⟨hch, hcv⟩ := segLoop_chain q evs 0 st hs h0
    show isChain 0 24
      (if q < 24 then
        (if (segLoop q evs 0 st).2.1 < q then
          (segLoop q evs 0 st).1 ++
            [⟨(segLoop q evs 0 st).2.1, q,
              seg_kind (segLoop q evs 0 st).2.2⟩]
        else (segLoop q evs 0 st).1) ++ [⟨q, 24, Kind.future⟩]
      else
        (if (segLoop q evs 0 st).2.1 < q then
          (segLoop q evs 0 st).1 ++
            [⟨(segLoop q evs 0 st).2.1, q,
              seg_kind (segLoop q evs 0 st).2.2⟩]
        else (segLoop q evs 0 st).1))
    rw [if_pos hq24]
    have hfut : isChain q 24 [⟨q, 24, Kind.future⟩] := ⟨rfl, hq24, rfl⟩
    by_cases hcc : (segLoop q evs 0 st).2.1 < q
    · rw [if_pos hcc]
      have hsingle : isChain ((segLoop q evs 0 st).2.1) q
          [⟨(segLoop q evs 0 st).2.1, q,
            seg_kind (segLoop q evs 0 st).2.2⟩] := ⟨rfl, hcc, rfl⟩
      have h1 : isChain 0 q ((segLoop q evs 0 st).1 ++
          [⟨(segLoop q evs 0 st).2.1, q,
            seg_kind (segLoop q evs 0 st).2.2⟩]) :=
        isChain_append hch hsingle
      exact isChain_append h1 hfut
    · rw [if_neg hcc]
      have hq0' : (segLoop q evs 0 st).2.1 = q := by
        rcases hcv with h1 | h2
        · rw [h1]
          rw [h1] at hcc
          have hq' : q ≤ 0 := not_lt.mp hcc
          linarith
        · exact absurd h2 hcc
      rw [hq0'] at hch
      exact isChain_append hch hfut

lemma by_day_goodHour (ws : ℤ) (evs : List RawEvent) (k : ℤ) :
    ∀ e ∈ by_day ws evs k, GoodHour e.hour := by
  intro e he
  unfold by_day at he
  obtain ⟨x, _, hxe⟩ := List.mem_map.mp he
  rw [← hxe]
  exact goodHour_hourOf x.timestamp

lemma mem_assembleDays_shape (ws now : ℤ) (bucket : ℤ → List DayEvent)
    (hbucket : ∀ k, ∀ e ∈ bucket k, GoodHour e.hour) :
    ∀ (offs : List ℕ) (carry : Option Bool) (day : Day),
      day ∈ assembleDays ws now bucket offs carry →
      (day.segments = [⟨0, 24, Kind.future⟩] ∧ day.hours_online = 0 ∧
        day.hours_offline = 0 ∧ day.is_future = true) ∨
      (∃ devs c0 cutoff,
        devs.Sorted (fun a b : DayEvent => a.hour ≤ b.hour) ∧
        (∀ e ∈ devs, GoodHour e.hour) ∧
        (∀ q : ℚ, cutoff = some q → GoodHour q) ∧
        day.segments = (build_day_segments devs c0 cutoff).1 ∧
        day.hours_online = round2 (sumKind Kind.green day.segments) ∧
        day.hours_offline = round2 (sumKind Kind.red day.segments) ∧
        day.is_future = !(day.segments.any fun s =>
          decide (s.kind = Kind.green) || decide (s.kind = Kind.red))) := by
  intro offs
  induction offs with
  | nil =>
    intro carry day h
    simp [assembleDays] at h
  | cons o rest ih =>
    intro carry day h
    simp only [assembleDays] at h
    by_cases hfut : dateKey now < dateKey (ws + (o : ℤ) * 86400)
    · rw [if_pos hfut] at h
      rcases List.mem_cons.mp h with h1 | h2
      · left
        rw [h1]
        exact ⟨rfl, rfl, rfl, rfl⟩
      · exact ih carry day h2
    · rw [if_neg hfut] at h
      rcases List.mem_cons.mp h with h1 | h2
      · right
        refine ⟨sortByHour (bucket (dateKey (ws + (o : ℤ) * 86400))), carry,
          if dateKey (ws + (o : ℤ) * 86400) = dateKey now
            then some (hourOf now) else none,
          sorted_sortByHour _, ?_, ?_, ?_, ?_, ?_, ?_⟩
        · intro e he
          exact hbucket _ e (mem_sortByHour.mp he)
        · intro q hq
          by_cases hk : dateKey (ws + (o : ℤ) * 86400) = dateKey now
          · rw [if_pos hk] at hq
            have : q = hourOf now := by
              injection hq with h'
              exact h'.symm
            rw [this]
            exact goodHour_hourOf now
          · rw [if_neg hk] at hq
            exact absurd hq (by simp)
        · rw [h1]
        · rw [h1]
        · rw [h1]
        · rw [h1]
      · exact ih _ day h2

lemma assembleDays_length (ws now : ℤ) (bucket : ℤ → List DayEvent) :
    ∀ (offs : List ℕ) (carry : Option Bool),
      (assembleDays ws now bucket offs carry).length = offs.length := by
  intro offs
  induction offs with
  | nil => intro _; rfl
  | cons o rest ih =>
    intro carry
    simp only [assembleDays]
    by_cases h : dateKey now < dateKey (ws + (o : ℤ) * 86400)
    · rw [if_pos h]
      simp [ih]
    · rw [if_neg h]
      simp [ih]

/-- C2: the engine produces exactly 7 days and every produced day
carries a non-empty interval list that tiles `[0, 24]` exactly: the
first interval starts at 0, the last ends at 24, consecutive intervals
share their boundary (no overlap and no gap), every interval has
strictly positive length, and the durations sum to 24. -/
theorem day_intervals_partition (ws now : ℤ) (evs : List RawEvent)
    (day : Day) (hday : day ∈ build_week_from_events ws now evs) :
    (build_week_from_events ws now evs).length = 7 ∧
    day.segments ≠ [] ∧
    day.segments.head?.map Segment.start = some 0 ∧
    day.segments.getLast?.map Segment.stop = some 24 ∧
    day.segments.Chain' (fun s t => s.stop = t.start) ∧
    (∀ s ∈ day.segments, s.start < s.stop) ∧
    sumDur day.segments = 24 := by
  have hlen : (build_week_from_events ws now evs).length = 7 := by
    show (assembleDays ws now (by_day ws evs) [0, 1, 2, 3, 4, 5, 6]
      (initial_status evs ws)).length = 7
    rw [assembleDays_length]
    rfl
  refine ⟨hlen, ?_⟩
  have hshape := mem_assembleDays_shape ws now (by_day ws evs)
    (fun k => by_day_goodHour ws evs k) [0, 1, 2, 3, 4, 5, 6]
    (initial_status evs ws) day hday
  have hchain : isChain 0 24 day.segments := by
    rcases hshape with ⟨hsegs, _⟩ |
      ⟨devs, c0, cutoff, hsort, hgood, hcut, hsegs, _⟩
    · rw [hsegs]
      exact ⟨rfl, by norm_num, rfl⟩
    · rw [hsegs]
      apply build_day_segments_chain devs c0 cutoff hsort
      · intro e he
        obtain ⟨n, _, hn⟩ := hgood e he
        rw [hn]
        positivity
      · intro q hq
        obtain ⟨n, hn86, hn⟩ := hcut q hq
        constructor
        · rw [hn]
          positivity
        · rw [hn, div_lt_iff₀ (by norm_num : (0:ℚ) < 3600)]
          have : (n : ℚ) < 86400 := by exact_mod_cast hn86
          linarith
  have hne : day.segments ≠ [] := by
    intro h
    rw [h] at hchain
    norm_num [isChain] at hchain
  exact ⟨hne, isChain_head? hchain hne, isChain_getLast? hchain hne,
    isChain_chain' hchain, isChain_mem_lt hchain,
    by rw [isChain_sum hchain]; norm_num⟩

lemma round2_zero : round2 0 = 0 := by
  norm_num [round2, rhe]

lemma round2_24 : round2 (24 : ℚ) = 24 := by
  norm_num [round2, rhe]

lemma round2_14 : round2 (14 : ℚ) = 14 := by
  norm_num [round2, rhe]

lemma round2_43219 : round2 (43219 / 3600 : ℚ) = 1201 / 100 := by
  norm_num [round2, rhe]

lemma round2_2159 : round2 (2159 / 180 : ℚ) = 1199 / 100 := by
  norm_num [round2, rhe]

set_option maxHeartbeats 1000000 in
lemma build_week_eval_empty : build_week_from_events 0 691200 [] =
    [⟨0, [⟨0, 24, Kind.unknown⟩], 0, 0, true⟩,
     ⟨1, [⟨0, 24, Kind.unknown⟩], 0, 0, true⟩,
     ⟨2, [⟨0, 24, Kind.unknown⟩], 0, 0, true⟩,
     ⟨3, [⟨0, 24, Kind.unknown⟩], 0, 0, true⟩,
     ⟨4, [⟨0, 24, Kind.unknown⟩], 0, 0, true⟩,
     ⟨5, [⟨0, 24, Kind.unknown⟩], 0, 0, true⟩,
     ⟨6, [⟨0, 24, Kind.unknown⟩], 0, 0, true⟩] := by
  norm_num [build_week_from_events, assembleDays, by_day, initial_status,
    sortByTs, sortByHour, dateKey, secOfDay, build_day_segments, segLoop,
    seg_kind, round2_zero, sumKind, List.insertionSort, hourOf, to_decimal,
    localHour, localMin, localSec, List.filter, List.map, List.sum,
    List.any, List.foldr]
  decide

set_option maxHeartbeats 2000000 in
lemma build_week_eval_tiny_gap :
    build_week_from_events 0 691200
        [⟨0, 1, true, 1⟩, ⟨1, 1, false, 43220⟩] =
    (⟨0, [⟨0, 1/3600, Kind.unknown⟩, ⟨1/3600, 2161/180, Kind.green⟩,
        ⟨2161/180, 24, Kind.red⟩], 1201/100, 1199/100, false⟩ : Day) ::
    [⟨1, [⟨0, 24, Kind.red⟩], 0, 24, false⟩,
     ⟨2, [⟨0, 24, Kind.red⟩], 0, 24, false⟩,
     ⟨3, [⟨0, 24, Kind.red⟩], 0, 24, false⟩,
     ⟨4, [⟨0, 24, Kind.red⟩], 0, 24, false⟩,
     ⟨5, [⟨0, 24, Kind.red⟩], 0, 24, false⟩,
     ⟨6, [⟨0, 24, Kind.red⟩], 0, 24, false⟩] := by
  norm_num [build_week_from_events, assembleDays, by_day, initial_status,
    sortByTs, sortByHour, dateKey, secOfDay, build_day_segments, segLoop,
    seg_kind, round2_zero, round2_43219, round2_2159, round2_24, sumKind,
    List.insertionSort, List.orderedInsert, hourOf, to_decimal,
    localHour, localMin, localSec, List.filter, List.map, List.sum,
    List.any, List.foldr]

set_option maxHeartbeats 2000000 in
lemma build_week_eval_midnight :
    build_week_from_events 0 86400 [⟨0, 1, true, 36000⟩] =
    (⟨0, [⟨0, 10, Kind.unknown⟩, ⟨10, 24, Kind.green⟩], 14, 0, false⟩ : Day) ::
    [⟨1, [⟨0, 24, Kind.future⟩], 0, 0, true⟩,
     ⟨2, [⟨0, 24, Kind.future⟩], 0, 0, true⟩,
     ⟨3, [⟨0, 24, Kind.future⟩], 0, 0, true⟩,
     ⟨4, [⟨0, 24, Kind.future⟩], 0, 0, true⟩,
     ⟨5, [⟨0, 24, Kind.future⟩], 0, 0, true⟩,
     ⟨6, [⟨0, 24, Kind.future⟩], 0, 0, true⟩] := by
  norm_num [build_week_from_events, assembleDays, by_day, initial_status,
    sortByTs, sortByHour, dateKey, secOfDay, build_day_segments, segLoop,
    seg_kind, round2_zero, round2_14, round2_24, sumKind,
    List.insertionSort, List.orderedInsert, hourOf, to_decimal,
    localHour, localMin, localSec, List.filter, List.map, List.sum,
    List.any, List.foldr]
  decide

/-- Witness for C2: the first day of a concrete no-event week tiles
`[0, 24]`. -/
theorem day_intervals_partition_witness :
    (build_week_from_events 0 691200 []).length = 7 ∧
    (⟨0, [⟨0, 24, Kind.unknown⟩], 0, 0, true⟩ : Day).segments ≠ [] ∧
    (⟨0, [⟨0, 24, Kind.unknown⟩], 0, 0, true⟩ : Day).segments.head?.map
      Segment.start = some 0 ∧
    (⟨0, [⟨0, 24, Kind.unknown⟩], 0, 0, true⟩ : Day).segments.getLast?.map
      Segment.stop = some 24 ∧
    (⟨0, [⟨0, 24, Kind.unknown⟩], 0, 0, true⟩ : Day).segments.Chain'
      (fun s t => s.stop = t.start) ∧
    (∀ s ∈ (⟨0, [⟨0, 24, Kind.unknown⟩], 0, 0, true⟩ : Day).segments,
      s.start < s.stop) ∧
    sumDur (⟨0, [⟨0, 24, Kind.unknown⟩], 0, 0, true⟩ : Day).segments = 24 :=
  day_intervals_partition 0 691200 [] ⟨0, [⟨0, 24, Kind.unknown⟩], 0, 0, true⟩
    (by rw [build_week_eval_empty]; exact List.mem_cons_self _ _)

lemma segLoop_no_events (ke : ℚ) (evs : List DayEvent) (c : ℚ)
    (st : Option Bool) (h : ∀ e ∈ evs, ¬ e.hour < ke) :
    segLoop ke evs c st = ([], c, st) := by
  cases evs with
  | nil => rfl
  | cons e t =>
    have : ke ≤ e.hour := not_lt.mp (h e (by simp))
    simp only [segLoop, if_pos this]

/-- C4 (amended): carry threading when a day has no event before its
`knownEnd`.  (a) An unresolved (`None`) carry survives such a day
unchanged and every non-`Future` interval of the day is `Unknown`.
(b) A resolved carry `S` gives the day a leading `[0, knownEnd)`
interval coloured by `S` — provided `knownEnd` is positive; when
`knownEnd = 0` (the engine reaches "today" exactly at local midnight)
the day consists of the `Future` placeholder instead, which is the one
correction to the claim. -/
theorem carry_threading_amended (evs : List DayEvent) (cutoff : Option ℚ)
    (S : Bool) (hno : ∀ e ∈ evs, ¬ e.hour < cutoff.getD 24) :
    ((build_day_segments evs none cutoff).2 = none ∧
      ∀ s ∈ (build_day_segments evs none cutoff).1,
        s.kind ≠ Kind.future → s.kind = Kind.unknown) ∧
    (0 < cutoff.getD 24 →
      (build_day_segments evs (some S) cutoff).1.head? =
        some ⟨0, cutoff.getD 24, if S then Kind.green else Kind.red⟩) := by
  have hkS : seg_kind (some S) = if S then Kind.green else Kind.red := by
    cases S <;> rfl
  cases cutoff with
  | none =>
    have h₁ := segLoop_no_events 24 evs 0 none (by simpa using hno)
    have h₂ := segLoop_no_events 24 evs 0 (some S) (by simpa using hno)
    constructor
    · constructor
      · show (segLoop 24 evs 0 none).2.2 = none
        rw [h₁]
      · intro s hs
        have : (build_day_segments evs none none).1 =
            [⟨0, 24, seg_kind none⟩] := by
          show (if (segLoop 24 evs 0 none).2.1 < 24 then
              (segLoop 24 evs 0 none).1 ++
                [⟨(segLoop 24 evs 0 none).2.1, 24,
                  seg_kind (segLoop 24 evs 0 none).2.2⟩]
            else (segLoop 24 evs 0 none).1) = _
          rw [h₁]
          norm_num
        rw [this] at hs
        simp at hs
        intro _
        rw [hs]
        rfl
    · intro _
      have : (build_day_segments evs (some S) none).1 =
          [⟨0, 24, seg_kind (some S)⟩] := by
        show (if (segLoop 24 evs 0 (some S)).2.1 < 24 then
            (segLoop 24 evs 0 (some S)).1 ++
              [⟨(segLoop 24 evs 0 (some S)).2.1, 24,
                seg_kind (segLoop 24 evs 0 (some S)).2.2⟩]
          else (segLoop 24 evs 0 (some S)).1) = _
        rw [h₂]
        norm_num
      rw [this, hkS]
      rfl
  | some q =>
    have h₁ := segLoop_no_events q evs 0 none (by simpa using hno)
    have h₂ := segLoop_no_events q evs 0 (some S) (by simpa using hno)
    have hq24 : q < 24 ∨ ¬ q < 24 := em _
    constructor
    · constructor
      · show (segLoop q evs 0 none).2.2 = none
        rw [h₁]
      · intro s hs
        have hsegs : (build_day_segments evs none (some q)).1 =
            (if (0:ℚ) < q then [⟨0, q, seg_kind none⟩] else []) ++
              (if q < 24 then [⟨q, 24, Kind.future⟩] else []) := by
          show (if q < 24 then
              (if (segLoop q evs 0 none).2.1 < q then
                (segLoop q evs 0 none).1 ++
                  [⟨(segLoop q evs 0 none).2.1, q,
                    seg_kind (segLoop q evs 0 none).2.2⟩]
              else (segLoop q evs 0 none).1) ++ [⟨q, 24, Kind.future⟩]
            else
              (if (segLoop q evs 0 none).2.1 < q then
                (segLoop q evs 0 none).1 ++
                  [⟨(segLoop q evs 0 none).2.1, q,
                    seg_kind (segLoop q evs 0 none).2.2⟩]
              else (segLoop q evs 0 none).1)) = _
          rw [h₁]
          by_cases hq : q < 24 <;> by_cases h0 : (0:ℚ) < q <;>
            simp [hq, h0]
        rw [hsegs] at hs
        intro hnf
        rcases List.mem_append.mp hs with h | h
        · by_cases h0 : (0:ℚ) < q
          · rw [if_pos h0] at h
            simp at h
            rw [h]
            rfl
          · rw [if_neg h0] at h
            simp at h
        · by_cases hq : q < 24
          · rw [if_pos hq] at h
            simp at h
            rw [h] at hnf
            exact absurd rfl hnf
          · rw [if_neg hq] at h
            simp at h
    · intro hpos
      have hpos' : (0:ℚ) < q := by simpa using hpos
      have hsegs : (build_day_segments evs (some S) (some q)).1 =
          [⟨0, q, seg_kind (some S)⟩] ++
            (if q < 24 then [⟨q, 24, Kind.future⟩] else []) := by
        show (if q < 24 then
            (if (segLoop q evs 0 (some S)).2.1 < q then
              (segLoop q evs 0 (some S)).1 ++
                [⟨(segLoop q evs 0 (some S)).2.1, q,
                  seg_kind (segLoop q evs 0 (some S)).2.2⟩]
            else (segLoop q evs 0 (some S)).1) ++ [⟨q, 24, Kind.future⟩]
          else
            (if (segLoop q evs 0 (some S)).2.1 < q then
              (segLoop q evs 0 (some S)).1 ++
                [⟨(segLoop q evs 0 (some S)).2.1, q,
                  seg_kind (segLoop q evs 0 (some S)).2.2⟩]
            else (segLoop q evs 0 (some S)).1)) = _
        rw [h₂]
        by_cases hq : q < 24 <;> simp [hq, hpos']
      rw [hsegs, hkS]
      rfl

/-- Witness for C4 (amended) at a concrete input: one event at hour 10,
cutoff 5, resolved carry `true`. -/
theorem carry_threading_amended_witness :
    ((build_day_segments [⟨10, false⟩] none (some 5)).2 = none ∧
      ∀ s ∈ (build_day_segments [⟨10, false⟩] none (some 5)).1,
        s.kind ≠ Kind.future → s.kind = Kind.unknown) ∧
    ((0:ℚ) < Option.getD (some (5:ℚ)) 24 →
      (build_day_segments [⟨10, false⟩] (some true) (some 5)).1.head? =
        some ⟨0, Option.getD (some (5:ℚ)) 24,
          if true then Kind.green else Kind.red⟩) :=
  carry_threading_amended [⟨10, false⟩] (some 5) true
    (by
      intro e he
      simp only [List.mem_singleton] at he
      subst he
      norm_num)

/-- Counterexample for C4 as stated: the Monday event resolves the
carry to `true`, Tuesday ("today", with "now" exactly at local
midnight, cutoff 0) has no events before its cutoff, yet Tuesday's
leading interval is the `Future` placeholder, not an On interval. -/
theorem carry_threading_counterexample :
    (build_day_segments [⟨10, true⟩] none none).2 = some true ∧
    ((build_week_from_events 0 86400 [⟨0, 1, true, 36000⟩]).get? 1).map
        (fun d => d.segments.head?) =
      some (some ⟨0, 24, Kind.future⟩) := by
  constructor
  · norm_num [build_day_segments, segLoop, seg_kind]
  · rw [build_week_eval_midnight]
    rfl

lemma assembleDays_getElem?_future (ws now : ℤ) (bucket : ℤ → List DayEvent) :
    ∀ (offs : List ℕ) (carry : Option Bool) (i : ℕ) (o : ℕ),
      offs[i]? = some o →
      dateKey now < dateKey (ws + (o : ℤ) * 86400) →
      (assembleDays ws now bucket offs carry)[i]? =
        some ⟨dateKey (ws + (o : ℤ) * 86400),
          [⟨0, 24, Kind.future⟩], 0, 0, true⟩ := by
  intro offs
  induction offs with
  | nil =>
    intro carry i o h
    simp at h
  | cons a rest ih =>
    intro carry i o h hfut
    cases i with
    | zero =>
      simp only [List.getElem?_cons_zero, Option.some.injEq] at h
      subst h
      simp only [assembleDays]
      rw [if_pos hfut]
      exact List.getElem?_cons_zero
    | succ n =>
      simp only [List.getElem?_cons_succ] at h
      simp only [assembleDays]
      by_cases hf : dateKey now < dateKey (ws + (a : ℤ) * 86400)
      · rw [if_pos hf]
        rw [List.getElem?_cons_succ]
        exact ih carry n o h hfut
      · rw [if_neg hf]
        rw [List.getElem?_cons_succ]
        exact ih _ n o h hfut

/-- C6: a day whose local date lies strictly after today's is the fixed
record with the single `Future` interval `[0, 24)`, zero hours and the
future/unknown mark, independently of the events (SegmentBuilder never
contributes to it); and for every produced day the future/unknown flag
is set iff no interval of the day is `On` or `Off`. -/
theorem future_day_spec :
    (∀ (ws now : ℤ) (evs : List RawEvent) (offset : ℕ), offset < 7 →
      dateKey now < dateKey (ws + (offset : ℤ) * 86400) →
      (build_week_from_events ws now evs)[offset]? =
        some ⟨dateKey (ws + (offset : ℤ) * 86400),
          [⟨0, 24, Kind.future⟩], 0, 0, true⟩) ∧
    (∀ (ws now : ℤ) (evs : List RawEvent) (day : Day),
      day ∈ build_week_from_events ws now evs →
      (day.is_future = true ↔
        ∀ s ∈ day.segments, s.kind ≠ Kind.green ∧ s.kind ≠ Kind.red)) := by
  constructor
  · intro ws now evs offset hlt hfut
    have hidx : ([0, 1, 2, 3, 4, 5, 6] : List ℕ)[offset]? = some offset := by
      interval_cases offset <;> rfl
    exact assembleDays_getElem?_future ws now (by_day ws evs)
      [0, 1, 2, 3, 4, 5, 6] (initial_status evs ws) offset offset hidx hfut
  · intro ws now evs day hday
    have hshape := mem_assembleDays_shape ws now (by_day ws evs)
      (fun k => by_day_goodHour ws evs k) [0, 1, 2, 3, 4, 5, 6]
      (initial_status evs ws) day hday
    rcases hshape with ⟨hsegs, _, _, hf⟩ |
      ⟨devs, c0, cutoff, _, _, _, _, _, _, hf⟩
    · rw [hf, hsegs]
      constructor
      · intro _ s hs
        simp only [List.mem_singleton] at hs
        rw [hs]
        exact ⟨by decide, by decide⟩
      · intro _
        rfl
    · rw [hf]
      constructor
      · intro hany s hs
        rw [Bool.not_eq_true', List.any_eq_false] at hany
        have := hany s hs
        simp only [Bool.or_eq_true, decide_eq_true_eq, not_or] at this
        exact this
      · intro hall
        rw [Bool.not_eq_true', List.any_eq_false]
        intro s hs
        simp only [Bool.or_eq_true, decide_eq_true_eq, not_or]
        exact hall s hs

/-- Witness for C6: with "now" at the week start, offset 3 is a future
day and carries the fixed Future record. -/
theorem future_day_spec_witness :
    (build_week_from_events 0 0 [])[3]? =
      some ⟨dateKey (0 + (3 : ℤ) * 86400), [⟨0, 24, Kind.future⟩],
        0, 0, true⟩ :=
  future_day_spec.1 0 0 [] 3 (by norm_num) (by decide)

lemma GoodHour.sec {q : ℚ} (h : GoodHour q) : Sec q := by
  obtain ⟨n, hn, e⟩ := h
  exact ⟨n, le_of_lt hn, e⟩

lemma sec_zero : Sec 0 := ⟨0, by norm_num, by norm_num⟩

lemma sec_24 : Sec 24 := ⟨86400, le_refl _, by norm_num⟩

lemma rhe_eq (q : ℚ) (a : ℤ) (r : ℚ) (hq : q = (a : ℚ) + r) (h0 : 0 ≤ r)
    (h1 : r < 1) :
    rhe q = a + (if r < 1/2 then 0 else if 1/2 < r then 1
      else if 2 ∣ a then 0 else 1) := by
  have hfl : ⌊q⌋ = a := by
    rw [hq, add_comm, Int.floor_add_int,
      Int.floor_eq_zero_iff.mpr (Set.mem_Ico.mpr ⟨h0, h1⟩)]
    ring
  have hsub : q - (⌊q⌋ : ℚ) = r := by
    rw [hfl, hq]
    ring
  unfold rhe
  rw [hsub, hfl]
  split_ifs <;> ring

lemma rhe_div36 (a : ℤ) (p : ℕ) (hp : p < 36) :
    rhe (((36 * a + (p : ℤ) : ℤ) : ℚ) / 36) =
      a + (if p < 18 then 0 else if 18 < p then 1
        else if 2 ∣ a then 0 else 1) := by
  have hq : ((36 * a + (p : ℤ) : ℤ) : ℚ) / 36 = (a : ℚ) + (p : ℚ) / 36 := by
    push_cast
    ring
  have hpq : (p : ℚ) < 36 := by exact_mod_cast hp
  rw [rhe_eq _ a ((p : ℚ) / 36) hq (by positivity)
    (by rw [div_lt_one (by norm_num : (0:ℚ) < 36)]; exact hpq)]
  congr 1
  by_cases h1 : p < 18
  · have : (p : ℚ) / 36 < 1 / 2 := by
      have : (p : ℚ) < 18 := by exact_mod_cast h1
      linarith
    rw [if_pos this, if_pos h1]
  · by_cases h2 : 18 < p
    · have hnlt : ¬ (p : ℚ) / 36 < 1 / 2 := by
        have : (18 : ℚ) < p := by exact_mod_cast h2
        intro hcon
        linarith
      have hgt : 1 / 2 < (p : ℚ) / 36 := by
        have : (18 : ℚ) < p := by exact_mod_cast h2
        linarith
      rw [if_neg hnlt, if_pos hgt, if_neg h1, if_pos h2]
    · have hp18 : p = 18 := by omega
      subst hp18
      have he : ((18 : ℕ) : ℚ) / 36 = 1 / 2 := by norm_num
      rw [he, if_neg (by norm_num), if_neg (by norm_num),
        if_neg h1, if_neg h2]

lemma rhe_pair_le (g r : ℕ) (hle : g + r ≤ 86400) :
    rhe ((g : ℚ) / 36) + rhe ((r : ℚ) / 36) ≤ 2400 := by
  have hg : g = 36 * (g / 36) + g % 36 := (Nat.div_add_mod g 36).symm
  have hr : r = 36 * (r / 36) + r % 36 := (Nat.div_add_mod r 36).symm
  have hgq : (g : ℚ) / 36 =
      ((36 * ((g / 36 : ℕ) : ℤ) + ((g % 36 : ℕ) : ℤ) : ℤ) : ℚ) / 36 := by
    congr 1
    push_cast
    exact_mod_cast congrArg (fun n : ℕ => (n : ℚ)) hg
  have hrq : (r : ℚ) / 36 =
      ((36 * ((r / 36 : ℕ) : ℤ) + ((r % 36 : ℕ) : ℤ) : ℤ) : ℚ) / 36 := by
    congr 1
    push_cast
    exact_mod_cast congrArg (fun n : ℕ => (n : ℚ)) hr
  rw [hgq, hrq, rhe_div36 _ _ (Nat.mod_lt _ (by norm_num)),
    rhe_div36 _ _ (Nat.mod_lt _ (by norm_num))]
  split_ifs <;> omega

lemma rhe_pair_eq (g r : ℕ) (heq : g + r = 86400) :
    rhe ((g : ℚ) / 36) + rhe ((r : ℚ) / 36) = 2400 := by
  have hg : g = 36 * (g / 36) + g % 36 := (Nat.div_add_mod g 36).symm
  have hr : r = 36 * (r / 36) + r % 36 := (Nat.div_add_mod r 36).symm
  have hgq : (g : ℚ) / 36 =
      ((36 * ((g / 36 : ℕ) : ℤ) + ((g % 36 : ℕ) : ℤ) : ℤ) : ℚ) / 36 := by
    congr 1
    push_cast
    exact_mod_cast congrArg (fun n : ℕ => (n : ℚ)) hg
  have hrq : (r : ℚ) / 36 =
      ((36 * ((r / 36 : ℕ) : ℤ) + ((r % 36 : ℕ) : ℤ) : ℤ) : ℚ) / 36 := by
    congr 1
    push_cast
    exact_mod_cast congrArg (fun n : ℕ => (n : ℚ)) hr
  rw [hgq, hrq, rhe_div36 _ _ (Nat.mod_lt _ (by norm_num)),
    rhe_div36 _ _ (Nat.mod_lt _ (by norm_num))]
  split_ifs <;> omega

lemma segLoop_sec (ke : ℚ) :
    ∀ (evs : List DayEvent) (c : ℚ) (st : Option Bool),
      (∀ e ∈ evs, Sec e.hour) → Sec c →
      (∀ s ∈ (segLoop ke evs c st).1, Sec s.start ∧ Sec s.stop) ∧
        Sec (segLoop ke evs c st).2.1 := by
  intro evs
  induction evs with
  | nil =>
    intro c st _ hc
    exact ⟨by intro s hs; simp [segLoop] at hs, hc⟩
  | cons e t ih =>
    intro c st hevs hc
    have hehour : Sec e.hour := hevs e (by simp)
    have ht : ∀ x ∈ t, Sec x.hour := fun x hx => hevs x (by simp [hx])
    by_cases h : ke ≤ e.hour
    · have hres : segLoop ke (e :: t) c st = ([], c, st) := by
        simp only [segLoop, if_pos h]
      rw [hres]
      exact ⟨by intro s hs; simp at hs, hc⟩
    · have ihr := ih e.hour (some e.is_online) ht hehour
      by_cases hcur : c < e.hour
      · have hres : segLoop ke (e :: t) c st =
            (⟨c, e.hour, seg_kind st⟩ ::
                (segLoop ke t e.hour (some e.is_online)).1,
              (segLoop ke t e.hour (some e.is_online)).2) := by
          simp only [segLoop, if_neg h, if_pos hcur]
        rw [hres]
        refine ⟨?_, ihr.2⟩
        intro s hs
        rcases List.mem_cons.mp hs with h1 | h2
        · rw [h1]
          exact ⟨hc, hehour⟩
        · exact ihr.1 s h2
      · have hres : segLoop ke (e :: t) c st =
            segLoop ke t e.hour (some e.is_online) := by
          simp only [segLoop, if_neg h, if_neg hcur]
        rw [hres]
        exact ihr

lemma build_day_segments_sec (evs : List DayEvent) (st : Option Bool)
    (cutoff : Option ℚ) (hevs : ∀ e ∈ evs, Sec e.hour)
    (hcut : ∀ q : ℚ, cutoff = some q → Sec q) :
    ∀ s ∈ (build_day_segments evs st cutoff).1, Sec s.start ∧ Sec s.stop := by
  cases cutoff with
  | none =>
    obtain ⟨hmem, hcv⟩ := segLoop_sec 24 evs 0 st hevs sec_zero
    intro s hs
    have hs' : s ∈ (if (segLoop 24 evs 0 st).2.1 < 24 then
        (segLoop 24 evs 0 st).1 ++
          [⟨(segLoop 24 evs 0 st).2.1, 24,
            seg_kind (segLoop 24 evs 0 st).2.2⟩]
      else (segLoop 24 evs 0 st).1) := hs
    by_cases hlt : (segLoop 24 evs 0 st).2.1 < 24
    · rw [if_pos hlt] at hs'
      rcases List.mem_append.mp hs' with h1 | h2
      · exact hmem s h1
      · simp only [List.mem_singleton] at h2
        rw [h2]
        exact ⟨hcv, sec_24⟩
    · rw [if_neg hlt] at hs'
      exact hmem s hs'
  | some q =>
    have hq : Sec q := hcut q rfl
    obtain ⟨hmem, hcv⟩ := segLoop_sec q evs 0 st hevs sec_zero
    intro s hs
    have hs' : s ∈ (if q < 24 then
        (if (segLoop q evs 0 st).2.1 < q then
          (segLoop q evs 0 st).1 ++
            [⟨(segLoop q evs 0 st).2.1, q,
              seg_kind (segLoop q evs 0 st).2.2⟩]
        else (segLoop q evs 0 st).1) ++ [⟨q, 24, Kind.future⟩]
      else
        (if (segLoop q evs 0 st).2.1 < q then
          (segLoop q evs 0 st).1 ++
            [⟨(segLoop q evs 0 st).2.1, q,
              seg_kind (segLoop q evs 0 st).2.2⟩]
        else (segLoop q evs 0 st).1)) := hs
    have hinner : ∀ x ∈ (if (segLoop q evs 0 st).2.1 < q then
        (segLoop q evs 0 st).1 ++
          [⟨(segLoop q evs 0 st).2.1, q,
            seg_kind (segLoop q evs 0 st).2.2⟩]
      else (segLoop q evs 0 st).1), Sec x.start ∧ Sec x.stop := by
      intro x hx
      by_cases hlt : (segLoop q evs 0 st).2.1 < q
      · rw [if_pos hlt] at hx
        rcases List.mem_append.mp hx with h1 | h2
        · exact hmem x h1
        · simp only [List.mem_singleton] at h2
          rw [h2]
          exact ⟨hcv, hq⟩
      · rw [if_neg hlt] at hx
        exact hmem x hx
    by_cases h24 : q < 24
    · rw [if_pos h24] at hs'
      rcases List.mem_append.mp hs' with h1 | h2
      · exact hinner s h1
      · simp only [List.mem_singleton] at h2
        rw [h2]
        exact ⟨hq, sec_24⟩
    · rw [if_neg h24] at hs'
      exact hinner s hs'

lemma sumKind_cons (k : Kind) (s : Segment) (t : List Segment) :
    sumKind k (s :: t) =
      (if s.kind = k then s.stop - s.start else 0) + sumKind k t := by
  unfold sumKind
  by_cases h : s.kind = k
  · rw [List.filter_cons_of_pos (by simp [h]), if_pos h]
    simp
  · rw [List.filter_cons_of_neg (by simp [h]), if_neg h]
    simp

lemma sumDur_cons (s : Segment) (t : List Segment) :
    sumDur (s :: t) = (s.stop - s.start) + sumDur t := by
  simp [sumDur]

lemma sumKind_sec (k : Kind) :
    ∀ l : List Segment,
      (∀ s ∈ l, (Sec s.start ∧ Sec s.stop) ∧ s.start ≤ s.stop) →
      ∃ n : ℕ, sumKind k l = (n : ℚ) / 3600 := by
  intro l
  induction l with
  | nil =>
    intro _
    exact ⟨0, by simp [sumKind]⟩
  | cons s t ih =>
    intro h
    obtain ⟨⟨⟨n₁, _, e₁⟩, ⟨n₂, _, e₂⟩⟩, hle⟩ := h s (by simp)
    obtain ⟨m, hm⟩ := ih fun x hx => h x (by simp [hx])
    rw [sumKind_cons, hm]
    by_cases hk : s.kind = k
    · rw [if_pos hk, e₁, e₂]
      have hn : n₁ ≤ n₂ := by
        rw [e₁, e₂] at hle
        have : (n₁ : ℚ) ≤ (n₂ : ℚ) := by linarith
        exact_mod_cast this
      refine ⟨(n₂ - n₁) + m, ?_⟩
      push_cast [hn]
      ring
    · rw [if_neg hk]
      exact ⟨m, by ring⟩

lemma sumDur_partition :
    ∀ l : List Segment,
      sumDur l = sumKind Kind.green l + sumKind Kind.red l +
        sumKind Kind.unknown l + sumKind Kind.future l := by
  intro l
  induction l with
  | nil => simp [sumDur, sumKind]
  | cons s t ih =>
    rw [sumDur_cons, sumKind_cons, sumKind_cons, sumKind_cons, sumKind_cons,
      ih]
    cases hk : s.kind <;> simp [hk] <;> ring

lemma sumKind_eq_zero (k : Kind) (l : List Segment)
    (h : ∀ s ∈ l, s.kind ≠ k) : sumKind k l = 0 := by
  unfold sumKind
  rw [List.filter_eq_nil_iff.mpr (by intro s hs; simpa using h s hs)]
  rfl

/-- C5 (amended): for every produced day, `hoursOn + hoursOff ≤ 24.0`,
and the sum equals 24.0 whenever the day has no `Unknown`/`Future`
interval.  (The converse — equality only in that case — fails: rounding
each of the two sums to two decimals can absorb a sub-second `Unknown`
gap, see the counterexample.) -/
theorem hours_round_bound (ws now : ℤ) (evs : List RawEvent) (day : Day)
    (hday : day ∈ build_week_from_events ws now evs) :
    day.hours_online + day.hours_offline ≤ 24 ∧
    ((∀ s ∈ day.segments, s.kind ≠ Kind.unknown ∧ s.kind ≠ Kind.future) →
      day.hours_online + day.hours_offline = 24) := by
  have hshape := mem_assembleDays_shape ws now (by_day ws evs)
    (fun k => by_day_goodHour ws evs k) [0, 1, 2, 3, 4, 5, 6]
    (initial_status evs ws) day hday
  rcases hshape with ⟨hsegs, hon, hoff, _⟩ |
    ⟨devs, c0, cutoff, hsort, hgood, hcut, hsegs, hon, hoff, _⟩
  · rw [hon, hoff]
    constructor
    · norm_num
    · intro h
      exfalso
      exact (h ⟨0, 24, Kind.future⟩ (by rw [hsegs]; simp)).2 rfl
  · have hgood0 : ∀ e ∈ devs, 0 ≤ e.hour := by
      intro e he
      obtain ⟨n, _, hn⟩ := hgood e he
      rw [hn]
      positivity
    have hcut' : ∀ q : ℚ, cutoff = some q → 0 ≤ q ∧ q < 24 := by
      intro q hq
      obtain ⟨n, hn86, hn⟩ := hcut q hq
      constructor
      · rw [hn]
        positivity
      · rw [hn, div_lt_iff₀ (by norm_num : (0:ℚ) < 3600)]
        have : (n : ℚ) < 86400 := by exact_mod_cast hn86
        linarith
    have hchain : isChain 0 24 day.segments := by
      rw [hsegs]
      exact build_day_segments_chain devs c0 cutoff hsort hgood0 hcut'
    have hsec : ∀ s ∈ day.segments,
        (Sec s.start ∧ Sec s.stop) ∧ s.start ≤ s.stop := by
      intro s hs
      refine ⟨?_, le_of_lt (isChain_mem_lt hchain s hs)⟩
      rw [hsegs] at hs
      exact build_day_segments_sec devs c0 cutoff
        (fun e he => (hgood e he).sec)
        (fun q hq => (hcut q hq).sec) s hs
    obtain ⟨g, hg⟩ := sumKind_sec Kind.green day.segments hsec
    obtain ⟨r, hr⟩ := sumKind_sec Kind.red day.segments hsec
    obtain ⟨u, hu⟩ := sumKind_sec Kind.unknown day.segments hsec
    obtain ⟨f, hf⟩ := sumKind_sec Kind.future day.segments hsec
    have hsum24 : sumDur day.segments = 24 := by
      rw [isChain_sum hchain]
      norm_num
    have hpart := sumDur_partition day.segments
    rw [hsum24, hg, hr, hu, hf] at hpart
    have htot : g + r + u + f = 86400 := by
      have hq : ((g + r + u + f : ℕ) : ℚ) = 86400 := by
        push_cast
        linarith [hpart]
      exact_mod_cast hq
    have harg_g : (100 : ℚ) * ((g : ℚ) / 3600) = (g : ℚ) / 36 := by ring
    have harg_r : (100 : ℚ) * ((r : ℚ) / 3600) = (r : ℚ) / 36 := by ring
    have hround_on : day.hours_online = ((rhe ((g:ℚ)/36) : ℤ) : ℚ) / 100 := by
      rw [hon, hg]
      unfold round2
      rw [harg_g]
    have hround_off : day.hours_offline =
        ((rhe ((r:ℚ)/36) : ℤ) : ℚ) / 100 := by
      rw [hoff, hr]
      unfold round2
      rw [harg_r]
    constructor
    · rw [hround_on, hround_off]
      have hle := rhe_pair_le g r (by omega)
      have hleq : ((rhe ((g:ℚ)/36) + rhe ((r:ℚ)/36) : ℤ) : ℚ) ≤ 2400 := by
        exact_mod_cast hle
      push_cast at hleq
      linarith
    · intro hno
      have hu0 : sumKind Kind.unknown day.segments = 0 :=
        sumKind_eq_zero _ _ fun s hs => (hno s hs).1
      have hf0 : sumKind Kind.future day.segments = 0 :=
        sumKind_eq_zero _ _ fun s hs => (hno s hs).2
      have hu' : u = 0 := by
        have h1 : (u : ℚ) / 3600 = 0 := by rw [← hu]; exact hu0
        have h2 : (u : ℚ) = 0 := by linarith
        exact_mod_cast h2
      have hf' : f = 0 := by
        have h1 : (f : ℚ) / 3600 = 0 := by rw [← hf]; exact hf0
        have h2 : (f : ℚ) = 0 := by linarith
        exact_mod_cast h2
      have hgr : g + r = 86400 := by omega
      have heq := rhe_pair_eq g r hgr
      rw [hround_on, hround_off]
      have heqq : ((rhe ((g:ℚ)/36) + rhe ((r:ℚ)/36) : ℤ) : ℚ) = 2400 := by
        exact_mod_cast heq
      push_cast at heqq
      linarith

/-- Witness for C5 (amended): the first day of a concrete no-event
week. -/
theorem hours_round_bound_witness :
    (⟨0, [⟨0, 24, Kind.unknown⟩], 0, 0, true⟩ : Day).hours_online +
      (⟨0, [⟨0, 24, Kind.unknown⟩], 0, 0, true⟩ : Day).hours_offline ≤ 24 ∧
    ((∀ s ∈ (⟨0, [⟨0, 24, Kind.unknown⟩], 0, 0, true⟩ : Day).segments,
        s.kind ≠ Kind.unknown ∧ s.kind ≠ Kind.future) →
      (⟨0, [⟨0, 24, Kind.unknown⟩], 0, 0, true⟩ : Day).hours_online +
        (⟨0, [⟨0, 24, Kind.unknown⟩], 0, 0, true⟩ : Day).hours_offline = 24) :=
  hours_round_bound 0 691200 [] ⟨0, [⟨0, 24, Kind.unknown⟩], 0, 0, true⟩
    (by rw [build_week_eval_empty]; exact List.mem_cons_self _ _)

/-- Counterexample for C5 as stated ("equality exactly when no
Unknown/Future interval"): a one-second `Unknown` gap at the start of
Monday (first event at 00:00:01) still yields
`hoursOn + hoursOff = 12.01 + 11.99 = 24.0` after the two roundings, so
equality does not imply the absence of Unknown/Future intervals. -/
theorem hours_round_counterexample :
    ∃ day ∈ build_week_from_events 0 691200
        [⟨0, 1, true, 1⟩, ⟨1, 1, false, 43220⟩],
      (∃ s ∈ day.segments, s.kind = Kind.unknown) ∧
      day.hours_online + day.hours_offline = 24 := by
  refine ⟨⟨0, [⟨0, 1/3600, Kind.unknown⟩, ⟨1/3600, 2161/180, Kind.green⟩,
      ⟨2161/180, 24, Kind.red⟩], 1201/100, 1199/100, false⟩, ?_, ?_, ?_⟩
  · rw [build_week_eval_tiny_gap]
    exact List.mem_cons_self _ _
  · exact ⟨⟨0, 1/3600, Kind.unknown⟩, by simp, rfl⟩
  · norm_num
